import Mathlib

/-!
Verification of the reverse lookup dictionary store
(`src/rime/dict/reverse_lookup_dictionary.cc`).

The on-disk container, its build/load lifecycle and the lookup path are
embedded as pure Lean functions over explicit data.  The external
string-interning trie (`StringTable` / `StringTableBuilder`, not part of the
given sources) is modelled from the spec's collaborator contract.  Machine
doubles in the version check are modelled by exact rationals with
`DBL_EPSILON = 2 ^ (-52)`; on the decimal version tags at issue the decision
margins are at least `1/10`, far above any double rounding error, so the
rational model decides compatibility exactly as the double comparison does.
-/

namespace RimeReverse

/-- A syllabary is the ordered collection of syllable names
(`Syllabary = set<string>` in the source); iterating it in order assigns the
dense syllable ids `0, 1, ...` (Build, lines 91-96).  It is embedded as the
list of names in iteration order. -/
abbrev Syllabary := List String

/-- One vocabulary entry: display text plus its pronunciation code, a
sequence of syllable ids (`DictEntry::text`, `DictEntry::code`). -/
structure DictEntry where
  text : String
  code : List Nat
deriving DecidableEq, Repr

mutual
/-- The forward vocabulary trie
(`class Vocabulary : map<int, VocabularyPage>`): its binding list, keyed by
syllable id. -/
inductive Vocabulary : Type where
  | mk : VocabPages → Vocabulary
deriving DecidableEq

/-- The bindings of a `Vocabulary`, as an association-list spine. -/
inductive VocabPages : Type where
  | nil : VocabPages
  | cons : Nat → VocabularyPage → VocabPages → VocabPages
deriving DecidableEq

/-- One page (`struct VocabularyPage`): its entries and the optional deeper
level holding longer continuations. -/
inductive VocabularyPage : Type where
  | mk : List DictEntry → VocabNext → VocabularyPage
deriving DecidableEq

/-- The nullable `next_level` pointer (`an<Vocabulary>`). -/
inductive VocabNext : Type where
  | none : VocabNext
  | some : Vocabulary → VocabNext
deriving DecidableEq
end

mutual
/-- All entries reachable from a vocabulary trie.  The source visits pages
breadth-first with an explicit queue (Build, lines 97-116); since every entry
of every reachable page is visited exactly once and the aggregation target is
an ordered map of ordered sets, the aggregate is independent of the visit
order, so the entries are collected structurally here. -/
def Vocabulary.allEntries : Vocabulary → List DictEntry
  | .mk pages => pages.allEntries

/-- Entries of a binding list: each page's entries in turn. -/
def VocabPages.allEntries : VocabPages → List DictEntry
  | .nil => []
  | .cons _ p rest => p.allEntries ++ rest.allEntries

/-- Entries of one page and of everything below it. -/
def VocabularyPage.allEntries : VocabularyPage → List DictEntry
  | .mk es next => es ++ next.allEntries

/-- Entries of the optional deeper level. -/
def VocabNext.allEntries : VocabNext → List DictEntry
  | .none => []
  | .some v => v.allEntries
end

/-- `boost::algorithm::join`: concatenate the list with the separator between
consecutive elements; empty list gives the empty string. -/
def joinWith (sep : String) : List String → String
  | [] => ""
  | s :: rest => rest.foldl (fun acc t => acc ++ sep ++ t) s

/-- Translate an entry code into its pronunciation string: each syllable id
inside the syllabary range is mapped to its name, ids outside the range are
skipped, and the names are joined with single spaces (Build, lines 104-109). -/
def pronunciationOf (syllabary : Syllabary) (code : List Nat) : String :=
  joinWith " "
    (code.filterMap fun cid =>
      if cid < syllabary.length then some (syllabary.getD cid "") else none)

/-- Lexicographic comparison of character lists, mirroring the byte-wise
`std::string` ordering used by `std::map` and `std::set` (on valid UTF-8,
byte order and codepoint order agree). -/
def charListLt : List Char → List Char → Bool
  | _, [] => false
  | [], _ :: _ => true
  | a :: as, b :: bs => if a < b then true else if b < a then false else charListLt as bs

/-- The `std::string` strict order as an executable comparison. -/
def stringLt (a b : String) : Bool :=
  charListLt a.data b.data

/-- Insertion into a `std::set<string>`, represented as its sorted list of
distinct elements. -/
def setInsert (a : String) : List String → List String
  | [] => [a]
  | b :: rest =>
    if a = b then b :: rest
    else if stringLt a b then a :: b :: rest
    else b :: setInsert a rest

/-- The sorted distinct-element list of a `std::set<string>` filled from a
list of insertions. -/
def setOfList (l : List String) : List String :=
  l.foldl (fun s a => setInsert a s) []

/-- A `ReverseLookupTable = map<string, set<string>>`, represented as an
association list sorted by key with set values as sorted distinct lists. -/
abbrev RevTable := List (String × List String)

/-- `rev_table[text].insert(pron)` (Build, line 109). -/
def tableInsert (t : RevTable) (key pron : String) : RevTable :=
  match t with
  | [] => [(key, [pron])]
  | (k, vs) :: rest =>
    if key = k then (k, setInsert pron vs) :: rest
    else if stringLt key k then (key, [pron]) :: (k, vs) :: rest
    else (k, vs) :: tableInsert rest key pron

/-- Map lookup in a `RevTable`. -/
def tableGet (t : RevTable) (key : String) : Option (List String) :=
  match t with
  | [] => none
  | (k, vs) :: rest => if key = k then some vs else tableGet rest key

/-- The aggregation step of Build applied to a list of entries: each entry
inserts its pronunciation string under its text (Build, lines 103-110). -/
def aggregateEntries (syllabary : Syllabary) (entries : List DictEntry) : RevTable :=
  entries.foldl (fun tbl e => tableInsert tbl e.text (pronunciationOf syllabary e.code)) []

/-- The aggregation table `rev_table` produced by Build's traversal of the
vocabulary trie. -/
def revTable (syllabary : Syllabary) (vocabulary : Vocabulary) : RevTable :=
  aggregateEntries syllabary vocabulary.allEntries

/-- The pronunciation strings a list of entries contributes for a text. -/
def contribsOf (syllabary : Syllabary) (entries : List DictEntry) (text : String) :
    List String :=
  entries.filterMap fun e =>
    if e.text = text then some (pronunciationOf syllabary e.code) else none

/-- All pronunciation strings contributed for a given text during the build
traversal, in visit order and with duplicates. -/
def contributions (syllabary : Syllabary) (vocabulary : Vocabulary) (text : String) :
    List String :=
  contribsOf syllabary vocabulary.allEntries text

/-- `kStemKeySuffix = "\x1fstem"`: the reserved suffix mangling stem keys into
the shared key space. -/
def kStemKeySuffix : String := "\x1fstem"

/-- The (key, value) string pairs interned by Build, in interning order:
first one pair per aggregated text, its value the set of pronunciations
joined with `" | "` (lines 124-130), then one pair per stem entry, its key
mangled with the reserved suffix and its value the stems joined with spaces
(lines 131-138). -/
def builtPairs (syllabary : Syllabary) (vocabulary : Vocabulary)
    (stems : RevTable) : List (String × String) :=
  (revTable syllabary vocabulary).map (fun kv => (kv.1, joinWith " | " kv.2)) ++
    stems.map (fun kv => (kv.1 ++ kStemKeySuffix, joinWith " " kv.2))

/-- Modelled from the spec: the external string-table builder
(`StringTableBuilder`, not among the given sources) interns the strings added
to it, "assigns dense integer ids" over the distinct strings and serializes a
trie answering `Lookup` and `GetString`.  It is modelled by the sorted list
of the distinct added strings, a string's id being its position in that
list. -/
def stringTableOf (added : List String) : List String :=
  setOfList added

/-- Modelled from the spec: `StringTable::Lookup(str) -> id | not-found`. -/
def stringTableLookup (table : List String) (s : String) : Option Nat :=
  if s ∈ table then some (table.indexOf s) else none

/-- Modelled from the spec: `StringTable::GetString(id) -> string`. -/
def stringTableGet (table : List String) (id : Nat) : String :=
  table.getD id ""

/-- The scatter loop `entries[key_ids[i]] = value_ids[i]` over a freshly
allocated (zero-initialized) array (Build, lines 176-182). -/
def scatterWrite (init : List Nat) (kvs : List (Nat × Nat)) : List Nat :=
  kvs.foldl (fun arr kv => arr.set kv.1 kv.2) init

/-- The on-disk reverse-db image: the metadata record together with the data
it points into (`reverse::Metadata` plus the interned tries and the index
array).  `format` is the `char[]` tag field; the index length is the stored
`index.size`. -/
structure ReverseDbFile where
  format : List Char
  dict_file_checksum : Nat
  dict_settings : String
  key_trie : List String
  value_trie : List String
  index : List Nat
deriving DecidableEq, Repr

/-- `kReverseFormat = "Rime::Reverse/3.1"`. -/
def kReverseFormat : List Char := String.toList "Rime::Reverse/3.1"

/-- The fixed leading part of the format tag, `"Rime::Reverse/"`
(`kReverseFormatPrefix` in the source). -/
def kReverseFormatHead : List Char := String.toList "Rime::Reverse/"

/-- Its length (`kReverseFormatPrefixLen`). -/
def kReverseFormatHeadLen : Nat := kReverseFormatHead.length

/-- `kReverseFormatCompatible = 3.0`. -/
def kReverseFormatCompatible : ℚ := 3

/-- `DBL_EPSILON` as an exact rational. -/
def dblEpsilon : ℚ := 1 / 2 ^ 52

/-- `ReverseDb::Build` (lines 84-209).  Aggregates the vocabulary, interns
keys and values, scatter-writes the key-id-indexed array of value ids and
records the checksum, settings blob and tries; the format tag is written
last.  `settingsBlob` stands for the serialized settings when rule-based
encoding is requested, absent otherwise (lines 142-148); the checksum is the
32-bit value of the `uint32_t` argument. -/
def ReverseDb.build (settingsBlob : Option String) (syllabary : Syllabary)
    (vocabulary : Vocabulary) (stems : RevTable) (dict_file_checksum : Nat) :
    ReverseDbFile :=
  let pairs := builtPairs syllabary vocabulary stems
  let entry_count := pairs.length
  let keyTable := stringTableOf (pairs.map Prod.fst)
  let valueTable := stringTableOf (pairs.map Prod.snd)
  let key_ids := pairs.map fun p => keyTable.indexOf p.1
  let value_ids := pairs.map fun p => valueTable.indexOf p.2
  { format := kReverseFormat
    dict_file_checksum := dict_file_checksum % 2 ^ 32
    dict_settings := settingsBlob.getD ""
    key_trie := keyTable
    value_trie := valueTable
    index := scatterWrite (List.replicate entry_count 0) (key_ids.zip value_ids) }

/-- A Build interrupted before the final tag write (line 207 runs last, as
the commit marker): the metadata record and all earlier fields exist, but
the format field still holds the zero bytes of the freshly created buffer. -/
def ReverseDb.buildInterrupted (settingsBlob : Option String) (syllabary : Syllabary)
    (vocabulary : Vocabulary) (stems : RevTable) (dict_file_checksum : Nat) :
    ReverseDbFile :=
  { ReverseDb.build settingsBlob syllabary vocabulary stems dict_file_checksum with
    format := List.replicate kReverseFormat.length (Char.ofNat 0) }

/-- The in-memory state of a `ReverseDb` instance: the `metadata_` pointer
and the two loaded string-table views (null when not loaded). -/
structure ReverseDb where
  metadata_ : Option ReverseDbFile
  key_trie_ : Option (List String)
  value_trie_ : Option (List String)
deriving DecidableEq, Repr

/-- A closed instance: nothing mapped, no table views. -/
def ReverseDb.closed : ReverseDb := ⟨none, none, none⟩

/-- A digit character's value. -/
def digitVal (c : Char) : Option Nat :=
  if ('0' ≤ c ∧ c ≤ '9') then some (c.toNat - 48) else none

/-- Parse a run of leading digits as a natural number, returning the rest. -/
def parseDigits : List Char → Nat → Nat × List Char
  | [], acc => (acc, [])
  | c :: rest, acc =>
    match digitVal c with
    | some d => parseDigits rest (10 * acc + d)
    | none => (acc, c :: rest)

/-- Parse a run of leading digits after the decimal point. -/
def parseFracDigits : List Char → ℚ → ℚ → ℚ
  | [], _, acc => acc
  | c :: rest, scale, acc =>
    match digitVal c with
    | some d => parseFracDigits rest (scale / 10) (acc + scale * d)
    | none => acc

/-- Modelled from the spec: `std::atof` (C standard library, external) on the
version suffix — "parse the numeric suffix as the format version".  An
optional sign, integer digits and an optional fraction are parsed, stopping
at the first character that fits neither; unparsable input yields 0.
Exponents and leading whitespace, which no format tag uses, are not
modelled, and exact rational arithmetic stands in for double precision. -/
def atofQ (s : List Char) : ℚ :=
  let signRest : ℚ × List Char :=
    match s with
    | c :: r => if c = '-' then (-1, r) else if c = '+' then (1, r) else (1, s)
    | [] => (1, [])
  let ipRest := parseDigits signRest.2 0
  let frac : ℚ :=
    match ipRest.2 with
    | c :: r => if c = '.' then parseFracDigits r (1 / 10) 0 else 0
    | [] => 0
  signRest.1 * ((ipRest.1 : ℚ) + frac)

/-- The version window test of Load (lines 56-57): the parsed version is
rejected when it is below the compatible version or more than one above it,
each side widened by `DBL_EPSILON`. -/
def versionCompatible (v : ℚ) : Bool :=
  !(decide (v - kReverseFormatCompatible < 0 - dblEpsilon)) &&
    !(decide (v - kReverseFormatCompatible > 1 + dblEpsilon))

/-- `ReverseDb::Load` (lines 32-69) on an instance, given the bytes the file
maps to.  An open instance is first closed; the metadata record is read
(every modelled file image carries one — a too-short file, which `Find`
would reject, is not representable); the tag must start with the fixed
leading string and carry a version inside the tolerance window, each failure
closing the instance again; on success the two string-table views are
installed.  Returns the success flag and the new state. -/
def ReverseDb.load (db : ReverseDb) (f : ReverseDbFile) : Bool × ReverseDb :=
  if !(kReverseFormatHead.isPrefixOf f.format) then (false, ReverseDb.closed)
  else if !(versionCompatible (atofQ (f.format.drop kReverseFormatHeadLen))) then
    (false, ReverseDb.closed)
  else (true, ⟨some f, some f.key_trie, some f.value_trie⟩)

/-- `ReverseDb::Lookup` (lines 71-82): fail unless both table views are
loaded and the index is nonempty; resolve the key id, fetch the value id by
direct array access, resolve the value string; an empty result is reported
as not-found. -/
def ReverseDb.lookup (db : ReverseDb) (text : String) : Option String :=
  match db.metadata_, db.key_trie_, db.value_trie_ with
  | some md, some key_trie, some value_trie =>
    if md.index.length = 0 then none
    else
      match stringTableLookup key_trie text with
      | none => none
      | some key_id =>
        let value_id := md.index.getD key_id 0
        let result := stringTableGet value_trie value_id
        if result = "" then none else some result
  | _, _, _ => none

/-- `ReverseLookupDictionary::LookupStems` (lines 232-234): a plain lookup of
the text with the reserved stem suffix appended. -/
def ReverseDb.lookupStems (db : ReverseDb) (text : String) : Option String :=
  db.lookup (text ++ kStemKeySuffix)

/-- `ReverseDb::dict_file_checksum` (lines 217-219): the stored checksum, or
zero when no metadata is loaded. -/
def ReverseDb.dictFileChecksum (db : ReverseDb) : Nat :=
  match db.metadata_ with
  | some md => md.dict_file_checksum
  | none => 0

/-! ### Properties of the ordered-set and ordered-map representations -/

theorem charListLt_iff_lex : ∀ (as bs : List Char),
    charListLt as bs = true ↔ List.Lex (· < ·) as bs
  | [], [] => by simp [charListLt]
  | [], b :: bs => by
    simp only [charListLt]
    exact iff_of_true (by trivial) List.Lex.nil
  | a :: as, [] => by simp [charListLt]
  | a :: as, b :: bs => by
    rw [charListLt]
    by_cases h1 : a < b
    · simp only [if_pos h1]
      exact iff_of_true (by trivial) (List.Lex.rel h1)
    · by_cases h2 : b < a
      · simp only [if_neg h1, if_pos h2]
        constructor
        · intro h
          cases h
        · intro h
          cases h with
          | rel h3 => exact absurd h3 h1
          | cons h3 => exact absurd h2 (lt_irrefl a)
      · have hab : a = b := le_antisymm (le_of_not_lt h2) (le_of_not_lt h1)
        subst hab
        simp only [if_neg h1, if_neg h2]
        rw [charListLt_iff_lex as bs]
        constructor
        · intro h
          exact List.Lex.cons h
        · intro h
          cases h with
          | rel h3 => exact absurd h3 (lt_irrefl a)
          | cons h3 => exact h3

/-- The executable comparison agrees with the string order. -/
theorem stringLt_iff (a b : String) : stringLt a b = true ↔ a < b := by
  rw [String.lt_iff_toList_lt]
  exact charListLt_iff_lex a.toList b.toList

theorem mem_setInsert (x a : String) (l : List String) :
    x ∈ setInsert a l ↔ x = a ∨ x ∈ l := by
  induction l with
  | nil => simp [setInsert]
  | cons b rest ih =>
    by_cases hab : a = b
    · subst hab
      have hred : setInsert a (a :: rest) = a :: rest := by simp [setInsert]
      rw [hred, List.mem_cons]
      tauto
    · simp only [setInsert, if_neg hab]
      by_cases hlt : a < b
      · rw [if_pos ((stringLt_iff a b).mpr hlt)]
        simp only [List.mem_cons]
      · rw [if_neg fun hc => hlt ((stringLt_iff a b).mp hc)]
        simp only [List.mem_cons, ih]
        tauto

theorem sorted_setInsert (a : String) (l : List String)
    (h : l.Sorted (· < ·)) : (setInsert a l).Sorted (· < ·) := by
  induction l with
  | nil => simp [setInsert]
  | cons b rest ih =>
    have hb : ∀ x ∈ rest, b < x := (List.sorted_cons.mp h).1
    have hrest : rest.Sorted (· < ·) := (List.sorted_cons.mp h).2
    by_cases hab : a = b
    · subst hab
      simpa [setInsert] using h
    · simp only [setInsert, if_neg hab]
      by_cases hlt : a < b
      · rw [if_pos ((stringLt_iff a b).mpr hlt)]
        refine List.sorted_cons.mpr ⟨?_, h⟩
        intro x hx
        rcases List.mem_cons.mp hx with rfl | hx
        · exact hlt
        · exact lt_trans hlt (hb x hx)
      · rw [if_neg fun hc => hlt ((stringLt_iff a b).mp hc)]
        refine List.sorted_cons.mpr ⟨?_, ih hrest⟩
        intro x hx
        rcases (mem_setInsert x a rest).mp hx with rfl | hx
        · exact lt_of_le_of_ne (le_of_not_lt hlt) (Ne.symm hab)
        · exact hb x hx

theorem setInsert_idem (p : String) (l : List String) :
    setInsert p (setInsert p l) = setInsert p l := by
  induction l with
  | nil => simp [setInsert]
  | cons b rest ih =>
    by_cases hab : p = b
    · subst hab
      simp [setInsert]
    · by_cases hlt : p < b
      · have hlt' : stringLt p b = true := (stringLt_iff p b).mpr hlt
        simp [setInsert, hab, hlt']
      · have hlt' : ¬ stringLt p b = true := fun hc => hlt ((stringLt_iff p b).mp hc)
        simp only [setInsert, if_neg hab, if_neg hlt', ih]

theorem mem_foldl_setInsert (x : String) (l : List String) (s : List String) :
    x ∈ l.foldl (fun s a => setInsert a s) s ↔ x ∈ s ∨ x ∈ l := by
  induction l generalizing s with
  | nil => simp
  | cons a rest ih =>
    simp only [List.foldl_cons, ih, mem_setInsert, List.mem_cons]
    tauto

theorem mem_setOfList (x : String) (l : List String) :
    x ∈ setOfList l ↔ x ∈ l := by
  simpa [setOfList] using mem_foldl_setInsert x l []

theorem sorted_setOfList (l : List String) : (setOfList l).Sorted (· < ·) := by
  have aux : ∀ (l s : List String), s.Sorted (· < ·) →
      (l.foldl (fun s a => setInsert a s) s).Sorted (· < ·) := by
    intro l
    induction l with
    | nil => intro s hs; simpa using hs
    | cons a rest ih =>
      intro s hs
      exact ih (setInsert a s) (sorted_setInsert a s hs)
  simpa [setOfList] using aux l [] (by simp)

theorem nodup_setOfList (l : List String) : (setOfList l).Nodup :=
  (sorted_setOfList l).nodup

theorem length_setOfList_of_nodup (l : List String) (h : l.Nodup) :
    (setOfList l).length = l.length := by
  have h1 := List.toFinset_card_of_nodup (nodup_setOfList l)
  have h2 := List.toFinset_card_of_nodup h
  have h3 : (setOfList l).toFinset = l.toFinset := by
    ext x
    simp [mem_setOfList]
  rw [← h1, ← h2, h3]

/-! ### Properties of `joinWith` -/

theorem foldl_join_ne_nil (sep : String) (l : List String) (acc : String)
    (h : l ≠ []) :
    ∃ r, l.foldl (fun a t => a ++ sep ++ t) acc = acc ++ sep ++ r := by
  induction l generalizing acc with
  | nil => exact absurd rfl h
  | cons x rest ih =>
    cases rest with
    | nil => exact ⟨x, rfl⟩
    | cons y t =>
      obtain ⟨r, hr⟩ := ih (acc ++ sep ++ x) (by simp)
      refine ⟨x ++ sep ++ r, ?_⟩
      simp only [List.foldl_cons] at hr ⊢
      rw [hr]
      simp [String.append_assoc]

theorem joinWith_cons_of_ne_nil (sep a : String) (l : List String) (h : l ≠ []) :
    ∃ r, joinWith sep (a :: l) = a ++ sep ++ r :=
  foldl_join_ne_nil sep l a h

/-! ### Properties of the aggregation table -/

theorem tableGet_eq_none_of_not_mem (t : RevTable) (k : String)
    (h : k ∉ t.map Prod.fst) : tableGet t k = none := by
  induction t with
  | nil => rfl
  | cons kv rest ih =>
    obtain ⟨k₀, vs⟩ := kv
    simp only [List.map_cons, List.mem_cons, not_or] at h
    simp only [tableGet, if_neg h.1]
    exact ih h.2

theorem mem_of_tableGet_eq_some (t : RevTable) (k : String) (vs : List String)
    (h : tableGet t k = some vs) : (k, vs) ∈ t := by
  induction t with
  | nil => simp [tableGet] at h
  | cons kv rest ih =>
    obtain ⟨k₀, vs₀⟩ := kv
    by_cases hk : k = k₀
    · subst hk
      have hred : tableGet ((k, vs₀) :: rest) k = some vs₀ := by simp [tableGet]
      rw [hred] at h
      obtain rfl : vs₀ = vs := by injection h
      exact List.mem_cons_self _ _
    · simp only [tableGet, if_neg hk] at h
      exact List.mem_cons_of_mem _ (ih h)

theorem mem_keys_tableInsert (t : RevTable) (k p x : String) :
    x ∈ (tableInsert t k p).map Prod.fst ↔ x = k ∨ x ∈ t.map Prod.fst := by
  induction t with
  | nil => simp [tableInsert]
  | cons kv rest ih =>
    obtain ⟨k₀, vs⟩ := kv
    by_cases hk : k = k₀
    · subst hk
      have hred : tableInsert ((k, vs) :: rest) k p = (k, setInsert p vs) :: rest := by
        simp [tableInsert]
      rw [hred]
      simp only [List.map_cons, List.mem_cons]
      tauto
    · simp only [tableInsert, if_neg hk]
      by_cases hlt : k < k₀
      · rw [if_pos ((stringLt_iff k k₀).mpr hlt)]
        simp only [List.map_cons, List.mem_cons]
      · rw [if_neg fun hc => hlt ((stringLt_iff k k₀).mp hc)]
        simp only [List.map_cons, List.mem_cons, ih]
        tauto

theorem sorted_keys_tableInsert (t : RevTable) (k p : String)
    (h : (t.map Prod.fst).Sorted (· < ·)) :
    ((tableInsert t k p).map Prod.fst).Sorted (· < ·) := by
  induction t with
  | nil => simp [tableInsert]
  | cons kv rest ih =>
    obtain ⟨k₀, vs⟩ := kv
    simp only [List.map_cons, List.sorted_cons] at h
    obtain ⟨h0, hrest⟩ := h
    by_cases hk : k = k₀
    · subst hk
      have hred : tableInsert ((k, vs) :: rest) k p = (k, setInsert p vs) :: rest := by
        simp [tableInsert]
      rw [hred, List.map_cons, List.sorted_cons]
      exact ⟨h0, hrest⟩
    · simp only [tableInsert, if_neg hk]
      by_cases hlt : k < k₀
      · rw [if_pos ((stringLt_iff k k₀).mpr hlt)]
        simp only [List.map_cons, List.sorted_cons]
        refine ⟨?_, h0, hrest⟩
        intro x hx
        rcases List.mem_cons.mp hx with rfl | hx
        · exact hlt
        · exact lt_trans hlt (h0 x hx)
      · rw [if_neg fun hc => hlt ((stringLt_iff k k₀).mp hc)]
        simp only [List.map_cons, List.sorted_cons]
        refine ⟨?_, ih hrest⟩
        intro x hx
        rcases (mem_keys_tableInsert rest k p x).mp hx with rfl | hx
        · exact lt_of_le_of_ne (le_of_not_lt hlt) (Ne.symm hk)
        · exact h0 x hx

theorem tableGet_tableInsert (t : RevTable) (k p k' : String)
    (hs : (t.map Prod.fst).Sorted (· < ·)) :
    tableGet (tableInsert t k p) k' =
      if k' = k then some (setInsert p ((tableGet t k).getD []))
      else tableGet t k' := by
  induction t with
  | nil =>
    by_cases hk : k' = k
    · simp [tableInsert, tableGet, hk, setInsert]
    · simp [tableInsert, tableGet, hk]
  | cons kv rest ih =>
    obtain ⟨k₀, vs⟩ := kv
    simp only [List.map_cons, List.sorted_cons] at hs
    obtain ⟨h0, hrest⟩ := hs
    by_cases hk : k = k₀
    · subst hk
      have hred : tableInsert ((k, vs) :: rest) k p = (k, setInsert p vs) :: rest := by
        simp [tableInsert]
      rw [hred]
      by_cases hk' : k' = k
      · subst hk'
        simp [tableGet]
      · simp [tableGet, hk']
    · simp only [tableInsert, if_neg hk]
      by_cases hlt : k < k₀
      · rw [if_pos ((stringLt_iff k k₀).mpr hlt)]
        have hknotmem : k ∉ rest.map Prod.fst := fun hmem =>
          absurd (lt_trans hlt (h0 k hmem)) (lt_irrefl k)
        by_cases hk' : k' = k
        · subst hk'
          have hnone : tableGet rest k' = none := tableGet_eq_none_of_not_mem _ _ hknotmem
          simp [tableGet, hk, hnone, setInsert]
        · simp [tableGet, hk']
      · rw [if_neg fun hc => hlt ((stringLt_iff k k₀).mp hc)]
        by_cases hk' : k' = k₀
        · subst hk'
          have hne : ¬ k' = k := fun h => hk h.symm
          simp [tableGet, hne]
        · simp only [tableGet, if_neg hk']
          rw [ih hrest]
          by_cases hkk : k' = k
          · subst hkk
            simp [tableGet, hk']
          · simp [tableGet, hk', hkk]

theorem sorted_keys_aggregate_from (syl : Syllabary) (entries : List DictEntry)
    (tbl : RevTable) (hs : (tbl.map Prod.fst).Sorted (· < ·)) :
    (((entries.foldl
        (fun tbl e => tableInsert tbl e.text (pronunciationOf syl e.code)) tbl)).map
          Prod.fst).Sorted (· < ·) := by
  induction entries generalizing tbl with
  | nil => exact hs
  | cons e rest ih =>
    exact ih _ (sorted_keys_tableInsert tbl e.text _ hs)

theorem sorted_keys_revTable (syl : Syllabary) (vocab : Vocabulary) :
    ((revTable syl vocab).map Prod.fst).Sorted (· < ·) :=
  sorted_keys_aggregate_from syl vocab.allEntries [] (by simp)

theorem nodup_keys_revTable (syl : Syllabary) (vocab : Vocabulary) :
    ((revTable syl vocab).map Prod.fst).Nodup :=
  (sorted_keys_revTable syl vocab).nodup

theorem tableGet_aggregate_from (syl : Syllabary) (entries : List DictEntry)
    (tbl : RevTable) (hs : (tbl.map Prod.fst).Sorted (· < ·)) (text : String) :
    tableGet (entries.foldl
        (fun tbl e => tableInsert tbl e.text (pronunciationOf syl e.code)) tbl) text
      = (contribsOf syl entries text).foldl
          (fun so p => some (setInsert p (so.getD []))) (tableGet tbl text) := by
  induction entries generalizing tbl with
  | nil => rfl
  | cons e rest ih =>
    simp only [List.foldl_cons, contribsOf, List.filterMap_cons]
    by_cases he : e.text = text
    · simp only [if_pos he, List.foldl_cons]
      rw [ih _ (sorted_keys_tableInsert tbl e.text _ hs)]
      have hget := tableGet_tableInsert tbl e.text (pronunciationOf syl e.code) text hs
      rw [if_pos he.symm] at hget
      rw [show (contribsOf syl rest text) = (rest.filterMap fun e =>
            if e.text = text then some (pronunciationOf syl e.code) else none) from rfl]
      rw [hget, he]
    · simp only [if_neg he]
      rw [ih _ (sorted_keys_tableInsert tbl e.text _ hs)]
      have hget := tableGet_tableInsert tbl e.text (pronunciationOf syl e.code) text hs
      have hne : ¬ text = e.text := fun h => he h.symm
      rw [if_neg hne] at hget
      rw [show (contribsOf syl rest text) = (rest.filterMap fun e =>
            if e.text = text then some (pronunciationOf syl e.code) else none) from rfl]
      rw [hget]

theorem foldl_optionInsert_some (l : List String) (s : List String) :
    l.foldl (fun so p => some (setInsert p (so.getD []))) (some s)
      = some (l.foldl (fun s p => setInsert p s) s) := by
  induction l generalizing s with
  | nil => rfl
  | cons p rest ih => simpa using ih (setInsert p s)

theorem tableGet_revTable (syl : Syllabary) (vocab : Vocabulary) (text : String) :
    tableGet (revTable syl vocab) text
      = if contributions syl vocab text = [] then none
        else some (setOfList (contributions syl vocab text)) := by
  have h := tableGet_aggregate_from syl vocab.allEntries [] (by simp) text
  rw [show revTable syl vocab = vocab.allEntries.foldl
        (fun tbl e => tableInsert tbl e.text (pronunciationOf syl e.code)) [] from rfl]
  rw [h]
  rw [show contributions syl vocab text = contribsOf syl vocab.allEntries text from rfl]
  cases hc : contribsOf syl vocab.allEntries text with
  | nil => simp [tableGet]
  | cons p rest =>
    have : tableGet ([] : RevTable) text = none := rfl
    rw [this]
    simp only [List.foldl_cons, Option.getD_none]
    rw [foldl_optionInsert_some]
    simp [setOfList]

/-! ### Properties of the index scatter write -/

theorem length_scatterWrite (init : List Nat) (kvs : List (Nat × Nat)) :
    (scatterWrite init kvs).length = init.length := by
  induction kvs generalizing init with
  | nil => rfl
  | cons kv rest ih =>
    simp only [scatterWrite, List.foldl_cons] at ih ⊢
    rw [ih]
    simp

theorem scatterWrite_getD_of_not_mem (init : List Nat) (kvs : List (Nat × Nat))
    (j : Nat) (h : j ∉ kvs.map Prod.fst) :
    (scatterWrite init kvs).getD j 0 = init.getD j 0 := by
  induction kvs generalizing init with
  | nil => rfl
  | cons kv rest ih =>
    simp only [List.map_cons, List.mem_cons, not_or] at h
    simp only [scatterWrite, List.foldl_cons] at ih ⊢
    rw [ih _ h.2]
    have hne : kv.1 ≠ j := fun he => h.1 he.symm
    simp [List.getD_eq_getElem?_getD, List.getElem?_set_ne hne]

theorem scatterWrite_getD_of_mem (init : List Nat) (kvs : List (Nat × Nat))
    (hnd : (kvs.map Prod.fst).Nodup) (kv : Nat × Nat) (hmem : kv ∈ kvs)
    (hlt : kv.1 < init.length) :
    (scatterWrite init kvs).getD kv.1 0 = kv.2 := by
  induction kvs generalizing init with
  | nil => simp at hmem
  | cons hd rest ih =>
    simp only [List.map_cons, List.nodup_cons] at hnd
    rcases List.mem_cons.mp hmem with rfl | hmem
    · have hnot : kv.1 ∉ rest.map Prod.fst := hnd.1
      simp only [scatterWrite, List.foldl_cons]
      rw [show (rest.foldl (fun arr kv => arr.set kv.1 kv.2) (init.set kv.1 kv.2))
            = scatterWrite (init.set kv.1 kv.2) rest from rfl]
      rw [scatterWrite_getD_of_not_mem _ _ _ hnot]
      have hlt2 : kv.1 < (init.set kv.1 kv.2).length := by simpa using hlt
      rw [List.getD_eq_getElem _ _ hlt2]
      simp
    · simp only [scatterWrite, List.foldl_cons]
      rw [show (rest.foldl (fun arr kv => arr.set kv.1 kv.2) (init.set hd.1 hd.2))
            = scatterWrite (init.set hd.1 hd.2) rest from rfl]
      exact ih _ hnd.2 hmem (by simpa using hlt)

/-! ### Evaluating the version window -/

theorem versionCompatible_eq_true_iff (v : ℚ) :
    versionCompatible v = true ↔
      ¬ (v - kReverseFormatCompatible < 0 - dblEpsilon) ∧
        ¬ (v - kReverseFormatCompatible > 1 + dblEpsilon) := by
  simp [versionCompatible]

theorem atofQ_toList_31 : atofQ (String.toList "3.1") = 31 / 10 := by
  have h : String.toList "3.1" = ['3', '.', '1'] := by decide
  rw [h]
  simp [atofQ, parseDigits, parseFracDigits, digitVal]
  norm_num

theorem atofQ_toList_30 : atofQ (String.toList "3.0") = 3 := by
  have h : String.toList "3.0" = ['3', '.', '0'] := by decide
  rw [h]
  simp [atofQ, parseDigits, parseFracDigits, digitVal]

theorem atofQ_toList_41 : atofQ (String.toList "4.1") = 41 / 10 := by
  have h : String.toList "4.1" = ['4', '.', '1'] := by decide
  rw [h]
  simp [atofQ, parseDigits, parseFracDigits, digitVal]
  norm_num

theorem versionCompatible_31 : versionCompatible (31 / 10) = true := by
  rw [versionCompatible_eq_true_iff]
  constructor <;> norm_num [kReverseFormatCompatible, dblEpsilon]

theorem versionCompatible_30 : versionCompatible 3 = true := by
  rw [versionCompatible_eq_true_iff]
  constructor <;> norm_num [kReverseFormatCompatible, dblEpsilon]

theorem versionCompatible_41 : versionCompatible (41 / 10) = false := by
  cases hvc : versionCompatible (41 / 10) with
  | false => rfl
  | true =>
    exfalso
    rcases (versionCompatible_eq_true_iff _).mp hvc with ⟨_, h2⟩
    apply h2
    norm_num [kReverseFormatCompatible, dblEpsilon]

/-- A successful `Load` of a file produced by `Build` installs the file's
metadata and both table views: the built tag starts with the fixed leading
string and carries version 3.1, inside the tolerance window. -/
theorem load_build (db : ReverseDb) (settingsBlob : Option String)
    (syl : Syllabary) (vocab : Vocabulary) (stems : RevTable) (c : Nat) :
    db.load (ReverseDb.build settingsBlob syl vocab stems c)
      = (true, ⟨some (ReverseDb.build settingsBlob syl vocab stems c),
          some (ReverseDb.build settingsBlob syl vocab stems c).key_trie,
          some (ReverseDb.build settingsBlob syl vocab stems c).value_trie⟩) := by
  have hfmt : (ReverseDb.build settingsBlob syl vocab stems c).format = kReverseFormat := rfl
  have h1 : kReverseFormatHead.isPrefixOf kReverseFormat = true := by decide
  have hdrop : kReverseFormat.drop kReverseFormatHeadLen = String.toList "3.1" := by decide
  rw [ReverseDb.load, hfmt, h1, hdrop, atofQ_toList_31, versionCompatible_31]
  rfl

/-! ### The string-table model and the built key space -/

theorem getD_indexOf_of_mem (l : List String) (a : String) (h : a ∈ l) :
    l.getD (l.indexOf a) "" = a := by
  have hlt : l.indexOf a < l.length := List.indexOf_lt_length.mpr h
  rw [List.getD_eq_getElem _ _ hlt]
  exact List.getElem_indexOf hlt

theorem stringTableLookup_of_mem (table : List String) (s : String) (h : s ∈ table) :
    stringTableLookup table s = some (table.indexOf s) := by
  simp [stringTableLookup, h]

theorem stringTableLookup_of_not_mem (table : List String) (s : String)
    (h : s ∉ table) : stringTableLookup table s = none := by
  simp [stringTableLookup, h]

theorem stringTableGet_indexOf (table : List String) (v : String) (h : v ∈ table) :
    stringTableGet table (table.indexOf v) = v :=
  getD_indexOf_of_mem table v h

theorem string_append_right_injective (t : String) :
    Function.Injective fun s : String => s ++ t := by
  intro a b hab
  have hdata : a.data ++ t.data = b.data ++ t.data := by
    have h := congrArg String.data hab
    simpa using h
  exact String.ext (List.append_cancel_right hdata)

/-- The key strings interned by Build are pairwise distinct as long as no
stem key, once mangled with the reserved suffix, equals an aggregated text:
aggregated texts are the distinct keys of an ordered map, and so are the stem
keys. -/
theorem nodup_builtPairs_keys (syl : Syllabary) (vocab : Vocabulary)
    (stems : RevTable) (hstems : (stems.map Prod.fst).Nodup)
    (hdisj : ∀ kv ∈ stems, kv.1 ++ kStemKeySuffix ∉ (revTable syl vocab).map Prod.fst) :
    ((builtPairs syl vocab stems).map Prod.fst).Nodup := by
  rw [builtPairs, List.map_append, List.map_map, List.map_map]
  rw [List.nodup_append]
  refine ⟨?_, ?_, ?_⟩
  · have h := nodup_keys_revTable syl vocab
    simpa [Function.comp] using h
  · have h1 : (stems.map fun kv => kv.1 ++ kStemKeySuffix).Nodup := by
      have h2 : (stems.map fun kv => kv.1 ++ kStemKeySuffix)
          = (stems.map Prod.fst).map fun k => k ++ kStemKeySuffix := by
        simp [List.map_map, Function.comp]
      rw [h2]
      exact hstems.map (string_append_right_injective kStemKeySuffix)
    simpa [Function.comp] using h1
  · intro a ha hb
    simp only [List.mem_map, Function.comp] at ha hb
    obtain ⟨kv, hkv, hkva⟩ := hb
    apply hdisj kv hkv
    rw [hkva]
    simp only [List.mem_map, Function.comp] at ha ⊢
    obtain ⟨kv₂, hkv₂, hkva₂⟩ := ha
    exact ⟨kv₂, hkv₂, hkva₂⟩

/-- Reading `Lookup` on the state left by a successful `Load`. -/
theorem lookup_state_some (f : ReverseDbFile) (kt vt : List String) (text : String) :
    ReverseDb.lookup ⟨some f, some kt, some vt⟩ text
      = if f.index.length = 0 then none
        else
          (stringTableLookup kt text).bind fun key_id =>
            if stringTableGet vt (f.index.getD key_id 0) = "" then none
            else some (stringTableGet vt (f.index.getD key_id 0)) := by
  rw [ReverseDb.lookup]
  by_cases h0 : f.index.length = 0
  · simp [h0]
  · simp only [if_neg h0]
    cases stringTableLookup kt text with
    | none => rfl
    | some key_id => rfl

/-- The index written by Build maps each interned pair's key id to its value
id, provided the interned keys are pairwise distinct. -/
theorem build_index_getD (settingsBlob : Option String) (syl : Syllabary)
    (vocab : Vocabulary) (stems : RevTable) (c : Nat)
    (hnd : ((builtPairs syl vocab stems).map Prod.fst).Nodup)
    (p : String × String) (hp : p ∈ builtPairs syl vocab stems) :
    (ReverseDb.build settingsBlob syl vocab stems c).index.getD
        ((ReverseDb.build settingsBlob syl vocab stems c).key_trie.indexOf p.1) 0
      = (ReverseDb.build settingsBlob syl vocab stems c).value_trie.indexOf p.2 := by
  have hkt : (ReverseDb.build settingsBlob syl vocab stems c).key_trie
      = stringTableOf ((builtPairs syl vocab stems).map Prod.fst) := rfl
  have hvt : (ReverseDb.build settingsBlob syl vocab stems c).value_trie
      = stringTableOf ((builtPairs syl vocab stems).map Prod.snd) := rfl
  have hidx : (ReverseDb.build settingsBlob syl vocab stems c).index
      = scatterWrite (List.replicate (builtPairs syl vocab stems).length 0)
          (((builtPairs syl vocab stems).map fun q =>
              (stringTableOf ((builtPairs syl vocab stems).map Prod.fst)).indexOf q.1).zip
            ((builtPairs syl vocab stems).map fun q =>
              (stringTableOf ((builtPairs syl vocab stems).map Prod.snd)).indexOf q.2)) := rfl
  have htmem : p.1 ∈ stringTableOf ((builtPairs syl vocab stems).map Prod.fst) := by
    rw [stringTableOf]
    exact (mem_setOfList _ _).mpr (List.mem_map_of_mem Prod.fst hp)
  rw [hkt, hvt, hidx, List.zip_map']
  have hkeylen : (stringTableOf ((builtPairs syl vocab stems).map Prod.fst)).length
      = (builtPairs syl vocab stems).length := by
    rw [stringTableOf, length_setOfList_of_nodup _ hnd, List.length_map]
  have hfstnd : (((builtPairs syl vocab stems).map fun q =>
        ((stringTableOf ((builtPairs syl vocab stems).map Prod.fst)).indexOf q.1,
          (stringTableOf ((builtPairs syl vocab stems).map Prod.snd)).indexOf q.2)).map
          Prod.fst).Nodup := by
    have hrw : (((builtPairs syl vocab stems).map fun q =>
          ((stringTableOf ((builtPairs syl vocab stems).map Prod.fst)).indexOf q.1,
            (stringTableOf ((builtPairs syl vocab stems).map Prod.snd)).indexOf q.2)).map
            Prod.fst)
        = ((builtPairs syl vocab stems).map Prod.fst).map
            fun k => (stringTableOf ((builtPairs syl vocab stems).map Prod.fst)).indexOf k := by
      simp [List.map_map, Function.comp]
    rw [hrw]
    refine List.Nodup.map_on ?_ hnd
    intro x hx y hy hxy
    have hxm : x ∈ stringTableOf ((builtPairs syl vocab stems).map Prod.fst) := by
      rw [stringTableOf]; exact (mem_setOfList _ _).mpr hx
    have hym : y ∈ stringTableOf ((builtPairs syl vocab stems).map Prod.fst) := by
      rw [stringTableOf]; exact (mem_setOfList _ _).mpr hy
    exact (List.indexOf_inj hxm hym).mp hxy
  have hkvmem : ((stringTableOf ((builtPairs syl vocab stems).map Prod.fst)).indexOf p.1,
        (stringTableOf ((builtPairs syl vocab stems).map Prod.snd)).indexOf p.2)
      ∈ (builtPairs syl vocab stems).map fun q =>
          ((stringTableOf ((builtPairs syl vocab stems).map Prod.fst)).indexOf q.1,
            (stringTableOf ((builtPairs syl vocab stems).map Prod.snd)).indexOf q.2) :=
    List.mem_map_of_mem _ hp
  have hlt : (stringTableOf ((builtPairs syl vocab stems).map Prod.fst)).indexOf p.1
      < (List.replicate (builtPairs syl vocab stems).length (0 : Nat)).length := by
    rw [List.length_replicate, ← hkeylen]
    exact List.indexOf_lt_length.mpr htmem
  exact scatterWrite_getD_of_mem _ _ hfstnd _ hkvmem hlt

/-- The heart of the build/load round trip: after loading a built store, a
lookup of any interned key resolves, through the index, to that key's
interned value — reported as a miss exactly when the value is the empty
string.  Requires the interned keys to be pairwise distinct. -/
theorem lookup_load_build (settingsBlob : Option String) (syl : Syllabary)
    (vocab : Vocabulary) (stems : RevTable) (c : Nat)
    (hnd : ((builtPairs syl vocab stems).map Prod.fst).Nodup)
    (t v : String) (hmem : (t, v) ∈ builtPairs syl vocab stems) :
    ((ReverseDb.closed.load (ReverseDb.build settingsBlob syl vocab stems c)).2).lookup t
      = if v = "" then none else some v := by
  rw [load_build]
  rw [lookup_state_some]
  have hkt : (ReverseDb.build settingsBlob syl vocab stems c).key_trie
      = stringTableOf ((builtPairs syl vocab stems).map Prod.fst) := rfl
  have hvt : (ReverseDb.build settingsBlob syl vocab stems c).value_trie
      = stringTableOf ((builtPairs syl vocab stems).map Prod.snd) := rfl
  have hidx : (ReverseDb.build settingsBlob syl vocab stems c).index
      = scatterWrite (List.replicate (builtPairs syl vocab stems).length 0)
          (((builtPairs syl vocab stems).map fun p =>
              (stringTableOf ((builtPairs syl vocab stems).map Prod.fst)).indexOf p.1).zip
            ((builtPairs syl vocab stems).map fun p =>
              (stringTableOf ((builtPairs syl vocab stems).map Prod.snd)).indexOf p.2)) := rfl
  have hlen : (ReverseDb.build settingsBlob syl vocab stems c).index.length
      = (builtPairs syl vocab stems).length := by
    rw [hidx, length_scatterWrite, List.length_replicate]
  have hne0 : (builtPairs syl vocab stems).length ≠ 0 :=
    List.length_pos.mpr (List.ne_nil_of_mem hmem) |>.ne.symm
  rw [hlen, if_neg hne0]
  have htk : t ∈ (builtPairs syl vocab stems).map Prod.fst :=
    List.mem_map_of_mem Prod.fst hmem
  have htmem : t ∈ stringTableOf ((builtPairs syl vocab stems).map Prod.fst) := by
    rw [stringTableOf]
    exact (mem_setOfList _ _).mpr htk
  rw [hkt, stringTableLookup_of_mem _ _ htmem]
  have hvk : v ∈ (builtPairs syl vocab stems).map Prod.snd :=
    List.mem_map_of_mem Prod.snd hmem
  have hvmem : v ∈ stringTableOf ((builtPairs syl vocab stems).map Prod.snd) := by
    rw [stringTableOf]
    exact (mem_setOfList _ _).mpr hvk
  have hget := build_index_getD settingsBlob syl vocab stems c hnd (t, v) hmem
  rw [hkt, hvt] at hget
  rw [Option.some_bind, hget, hvt, stringTableGet_indexOf _ _ hvmem]

/-! ### Bridges between the aggregation table and the interned pairs -/

theorem mem_builtPairs_of_tableGet (syl : Syllabary) (vocab : Vocabulary)
    (stems : RevTable) (t : String) (vs : List String)
    (h : tableGet (revTable syl vocab) t = some vs) :
    (t, joinWith " | " vs) ∈ builtPairs syl vocab stems := by
  rw [builtPairs]
  exact List.mem_append_left _
    (List.mem_map_of_mem (fun kv => (kv.1, joinWith " | " kv.2))
      (mem_of_tableGet_eq_some _ _ _ h))

theorem mem_builtPairs_of_stem (syl : Syllabary) (vocab : Vocabulary)
    (stems : RevTable) (k : String) (vs : List String) (h : (k, vs) ∈ stems) :
    (k ++ kStemKeySuffix, joinWith " " vs) ∈ builtPairs syl vocab stems := by
  rw [builtPairs]
  exact List.mem_append_right _
    (List.mem_map_of_mem (fun kv => (kv.1 ++ kStemKeySuffix, joinWith " " kv.2)) h)

theorem not_lt_empty_string (x : String) : ¬ x < "" := by
  obtain ⟨xs⟩ := x
  intro h
  rw [String.lt_iff_toList_lt] at h
  have h2 : xs < ([] : List Char) := h
  cases h2

theorem foldl_setInsert_empties (l : List String) (h : ∀ p ∈ l, p = "") :
    l.foldl (fun s a => setInsert a s) [""] = [""] := by
  induction l with
  | nil => rfl
  | cons p rest ih =>
    have hp : p = "" := h p (List.mem_cons_self _ _)
    subst hp
    have hstep : setInsert "" [""] = [""] := by decide
    simp only [List.foldl_cons, hstep]
    exact ih fun q hq => h q (List.mem_cons_of_mem _ hq)

theorem setOfList_all_empty (l : List String) (hne : l ≠ []) (h : ∀ p ∈ l, p = "") :
    setOfList l = [""] := by
  cases l with
  | nil => exact absurd rfl hne
  | cons p rest =>
    have hp : p = "" := h p (List.mem_cons_self _ _)
    subst hp
    rw [setOfList, List.foldl_cons]
    exact foldl_setInsert_empties rest fun q hq => h q (List.mem_cons_of_mem _ hq)

theorem setOfList_cons_empty (l : List String) (h0 : "" ∈ l) (q : String)
    (hq : q ∈ l) (hqne : q ≠ "") :
    ∃ tail, setOfList l = "" :: tail ∧ tail ≠ [] := by
  have hs := sorted_setOfList l
  have h0m : "" ∈ setOfList l := (mem_setOfList _ _).mpr h0
  have hqm : q ∈ setOfList l := (mem_setOfList _ _).mpr hq
  cases hlist : setOfList l with
  | nil =>
    rw [hlist] at h0m
    simp at h0m
  | cons a tail =>
    rw [hlist] at hs h0m hqm
    have hhead : a = "" := by
      rcases List.mem_cons.mp h0m with he | he
      · exact he.symm
      · exact absurd ((List.sorted_cons.mp hs).1 "" he) (not_lt_empty_string a)
    subst hhead
    refine ⟨tail, rfl, ?_⟩
    intro htail
    rw [htail] at hqm
    simp only [List.mem_cons, List.not_mem_nil, or_false] at hqm
    exact hqne hqm

theorem tableInsert_idem (t : RevTable) (k p : String) :
    tableInsert (tableInsert t k p) k p = tableInsert t k p := by
  induction t with
  | nil =>
    have h1 : setInsert p [p] = [p] := by simp [setInsert]
    simp [tableInsert, h1]
  | cons kv rest ih =>
    obtain ⟨k₀, vs⟩ := kv
    by_cases hk : k = k₀
    · subst hk
      have hred : tableInsert ((k, vs) :: rest) k p = (k, setInsert p vs) :: rest := by
        simp [tableInsert]
      have hred2 : tableInsert ((k, setInsert p vs) :: rest) k p
          = (k, setInsert p (setInsert p vs)) :: rest := by
        simp [tableInsert]
      rw [hred, hred2, setInsert_idem]
    · by_cases hlt : k < k₀
      · have hlt' : stringLt k k₀ = true := (stringLt_iff k k₀).mpr hlt
        rw [show tableInsert ((k₀, vs) :: rest) k p = (k, [p]) :: (k₀, vs) :: rest by
          simp [tableInsert, hk, hlt']]
        have h1 : setInsert p [p] = [p] := by simp [setInsert]
        simp [tableInsert, h1]
      · have hlt' : ¬ stringLt k k₀ = true := fun hc => hlt ((stringLt_iff k k₀).mp hc)
        rw [show tableInsert ((k₀, vs) :: rest) k p = (k₀, vs) :: tableInsert rest k p by
          simp [tableInsert, hk, hlt']]
        rw [show tableInsert ((k₀, vs) :: tableInsert rest k p) k p
            = (k₀, vs) :: tableInsert (tableInsert rest k p) k p by
          simp [tableInsert, hk, hlt']]
        rw [ih]

/-! ### The claims -/

/-- C5: during Build's traversal, each entry's code is translated by mapping
each syllable id to its name, skipping ids outside the syllabary range
(dropping an out-of-range id from a code leaves the pronunciation string
unchanged), and two entries with the same text and the same resulting
pronunciation string contribute only one copy to the aggregation table. -/
theorem c5_translation_skips_and_dedups :
    (∀ (syl : Syllabary) (c1 c2 : List Nat) (bad : Nat), syl.length ≤ bad →
      pronunciationOf syl (c1 ++ bad :: c2) = pronunciationOf syl (c1 ++ c2))
    ∧ (∀ (syl : Syllabary) (e1 e2 : DictEntry) (pre post : List DictEntry),
        e1.text = e2.text → pronunciationOf syl e1.code = pronunciationOf syl e2.code →
          aggregateEntries syl (pre ++ e1 :: e2 :: post)
            = aggregateEntries syl (pre ++ e1 :: post)) := by
  constructor
  · intro syl c1 c2 bad hbad
    have hno : ¬ bad < syl.length := Nat.not_lt.mpr hbad
    simp [pronunciationOf, List.filterMap_append, List.filterMap_cons, hno]
  · intro syl e1 e2 pre post hte hpe
    rw [aggregateEntries, aggregateEntries, List.foldl_append, List.foldl_append]
    simp only [List.foldl_cons]
    rw [← hte, ← hpe, tableInsert_idem]

/-- Witness for C5: with syllabary `["ni"]`, the out-of-range id 7 is skipped
from a code, and a duplicated entry leaves the aggregation table unchanged. -/
theorem c5_witness :
    ([("ni" : String)] : Syllabary).length ≤ 7
    ∧ pronunciationOf ["ni"] ([0] ++ 7 :: [0]) = pronunciationOf ["ni"] ([0] ++ [0])
    ∧ (⟨"X", [0]⟩ : DictEntry).text = (⟨"X", [0]⟩ : DictEntry).text
    ∧ aggregateEntries ["ni"] ([] ++ ⟨"X", [0]⟩ :: (⟨"X", [0]⟩ : DictEntry) :: [⟨"Y", [0]⟩])
        = aggregateEntries ["ni"] ([] ++ ⟨"X", [0]⟩ :: [⟨"Y", [0]⟩]) :=
  ⟨by decide,
    c5_translation_skips_and_dedups.1 ["ni"] [0] [0] 7 (by decide),
    rfl,
    c5_translation_skips_and_dedups.2 ["ni"] ⟨"X", [0]⟩ ⟨"X", [0]⟩ [] [⟨"Y", [0]⟩] rfl rfl⟩

/-- C7: `LookupStems(text)` is exactly `Lookup` applied to the text with the
reserved stem suffix appended; concretely, for a store built over syllabary
`["ni", "hao"]` with one entry (text `"X"`, code `[0, 1]`) and stems
`{"X" : {"stemA"}}`, `LookupStems("X")` returns `"stemA"` while
`Lookup("X")` still returns `"ni hao"`. -/
theorem c7_stem_isolation (db : ReverseDb) (text : String) :
    db.lookupStems text = db.lookup (text ++ kStemKeySuffix)
    ∧ ((ReverseDb.closed.load (ReverseDb.build none ["ni", "hao"]
          (.mk (.cons 0 (.mk [⟨"X", [0, 1]⟩] .none) .nil))
          [("X", ["stemA"])] 42)).2).lookupStems "X" = some "stemA"
    ∧ ((ReverseDb.closed.load (ReverseDb.build none ["ni", "hao"]
          (.mk (.cons 0 (.mk [⟨"X", [0, 1]⟩] .none) .nil))
          [("X", ["stemA"])] 42)).2).lookup "X" = some "ni hao" := by
  refine ⟨rfl, ?_, ?_⟩
  · rw [load_build]
    decide
  · rw [load_build]
    decide

/-- C8: `dict_file_checksum()` returns zero on an unloaded instance, and
after loading a file built with checksum `c` it returns exactly `c`, for
every 32-bit value `c`. -/
theorem c8_checksum_passthrough (settingsBlob : Option String) (syl : Syllabary)
    (vocab : Vocabulary) (stems : RevTable) (c : Nat) (hc : c < 2 ^ 32) :
    ReverseDb.closed.dictFileChecksum = 0
    ∧ ((ReverseDb.closed.load
          (ReverseDb.build settingsBlob syl vocab stems c)).2).dictFileChecksum = c := by
  refine ⟨rfl, ?_⟩
  rw [load_build]
  show c % 2 ^ 32 = c
  exact Nat.mod_eq_of_lt hc

/-- Witness for C8: checksum 3405691582 survives the build/load round trip. -/
theorem c8_witness :
    3405691582 < 2 ^ 32
    ∧ ((ReverseDb.closed.load
          (ReverseDb.build none [] (.mk .nil) [] 3405691582)).2).dictFileChecksum
        = 3405691582 :=
  ⟨by norm_num,
    (c8_checksum_passthrough none [] (.mk .nil) [] 3405691582 (by norm_num)).2⟩

/-- C9: `Load` discards any previously open state and reopens the file, so a
second `Load` of the same file returns the same flag and state, every
`Lookup` after the second `Load` agrees with the corresponding result after
the first, and when the first `Load` succeeds so does the second. -/
theorem c9_idempotent_reload (db : ReverseDb) (f : ReverseDbFile) :
    ((db.load f).2).load f = db.load f
    ∧ (∀ text, ((((db.load f).2).load f).2).lookup text = ((db.load f).2).lookup text)
    ∧ ((db.load f).1 = true → (((db.load f).2).load f).1 = true) := by
  have h : ∀ db' : ReverseDb, db'.load f = db.load f := fun db' => rfl
  exact ⟨h _, fun text => by rw [h], fun h1 => by rw [h]; exact h1⟩

/-- Witness for C9: reloading a freshly built empty store succeeds twice and
returns the same state. -/
theorem c9_witness :
    (ReverseDb.closed.load (ReverseDb.build none [] (.mk .nil) [] 0)).1 = true
    ∧ (((ReverseDb.closed.load (ReverseDb.build none [] (.mk .nil) [] 0)).2).load
          (ReverseDb.build none [] (.mk .nil) [] 0)).1 = true := by
  refine ⟨by rw [load_build], ?_⟩
  exact (c9_idempotent_reload ReverseDb.closed
      (ReverseDb.build none [] (.mk .nil) [] 0)).2.2 (by rw [load_build])

/-- C1 as frozen is refuted by a vocabulary entry with an empty code: its
text enters the aggregation table with the single (empty) pronunciation, yet
`Lookup` reports not-found instead of returning the joined value. -/
theorem c1_counterexample :
    tableGet (revTable []
        (.mk (.cons 0 (.mk [⟨"X", []⟩] .none) .nil))) "X" = some [""]
    ∧ ((ReverseDb.closed.load (ReverseDb.build none []
        (.mk (.cons 0 (.mk [⟨"X", []⟩] .none) .nil)) [] 0)).2).lookup "X" = none
    ∧ some (joinWith " | " (setOfList (contributions []
        (.mk (.cons 0 (.mk [⟨"X", []⟩] .none) .nil)) "X"))) ≠ (none : Option String) := by
  refine ⟨by decide, ?_, by decide⟩
  rw [load_build]
  decide

/-- C1 (amended): for every settings, syllabary, vocabulary, stems and
checksum, and every text the traversal put into the aggregation table,
provided the stem keys are distinct, no aggregated text equals a
suffix-mangled stem key, and the text's joined value is non-empty, loading
the built file and looking the text up returns exactly the `" | "`-joined,
sorted, duplicate-free set of pronunciations contributed for that text. -/
theorem c1_build_load_lookup_round_trip
    (settingsBlob : Option String) (syl : Syllabary) (vocab : Vocabulary)
    (stems : RevTable) (c : Nat) (text : String)
    (hstems : (stems.map Prod.fst).Nodup)
    (hdisj : ∀ kv ∈ stems, kv.1 ++ kStemKeySuffix ∉ (revTable syl vocab).map Prod.fst)
    (hcontrib : contributions syl vocab text ≠ [])
    (hval : joinWith " | " (setOfList (contributions syl vocab text)) ≠ "") :
    ((ReverseDb.closed.load (ReverseDb.build settingsBlob syl vocab stems c)).2).lookup text
        = some (joinWith " | " (setOfList (contributions syl vocab text)))
      ∧ (setOfList (contributions syl vocab text)).Sorted (· < ·)
      ∧ (setOfList (contributions syl vocab text)).Nodup := by
  have hget : tableGet (revTable syl vocab) text
      = some (setOfList (contributions syl vocab text)) := by
    rw [tableGet_revTable, if_neg hcontrib]
  have hmem := mem_builtPairs_of_tableGet syl vocab stems text _ hget
  have hnd := nodup_builtPairs_keys syl vocab stems hstems hdisj
  have h := lookup_load_build settingsBlob syl vocab stems c hnd text _ hmem
  rw [if_neg hval] at h
  exact ⟨h, sorted_setOfList _, nodup_setOfList _⟩

/-- Witness for C1: the spec's own example, syllabary `["ni", "hao"]` with
one entry (text `"X"`, code `[0, 1]`), correctly resolves to `"ni hao"`. -/
theorem c1_witness :
    ([("X", ["stemA"])] : RevTable).map Prod.fst = ["X"]
    ∧ contributions ["ni", "hao"]
        (.mk (.cons 0 (.mk [⟨"X", [0, 1]⟩] .none) .nil)) "X" ≠ []
    ∧ joinWith " | " (setOfList (contributions ["ni", "hao"]
        (.mk (.cons 0 (.mk [⟨"X", [0, 1]⟩] .none) .nil)) "X")) = "ni hao"
    ∧ ((ReverseDb.closed.load (ReverseDb.build none ["ni", "hao"]
        (.mk (.cons 0 (.mk [⟨"X", [0, 1]⟩] .none) .nil)) [("X", ["stemA"])] 7)).2).lookup "X"
        = some (joinWith " | " (setOfList (contributions ["ni", "hao"]
            (.mk (.cons 0 (.mk [⟨"X", [0, 1]⟩] .none) .nil)) "X"))) :=
  ⟨by decide, by decide, by decide,
    (c1_build_load_lookup_round_trip none ["ni", "hao"]
      (.mk (.cons 0 (.mk [⟨"X", [0, 1]⟩] .none) .nil)) [("X", ["stemA"])] 7 "X"
      (by decide) (by decide) (by decide) (by decide)).1⟩

/-- C2 as frozen is refuted when an aggregated text collides with a
suffix-mangled stem key: both pairs intern the same key string, the later
stem write overwrites the index slot, and the key ids cover only one of the
two slots. -/
theorem c2_counterexample :
    ¬ (∀ p ∈ builtPairs ["ni"]
          (.mk (.cons 0 (.mk [⟨"X\x1fstem", [0]⟩] .none) .nil)) [("X", ["stemA"])],
        (ReverseDb.build none ["ni"]
            (.mk (.cons 0 (.mk [⟨"X\x1fstem", [0]⟩] .none) .nil)) [("X", ["stemA"])] 0).index.getD
            ((ReverseDb.build none ["ni"]
                (.mk (.cons 0 (.mk [⟨"X\x1fstem", [0]⟩] .none) .nil))
                [("X", ["stemA"])] 0).key_trie.indexOf p.1) 0
          = (ReverseDb.build none ["ni"]
              (.mk (.cons 0 (.mk [⟨"X\x1fstem", [0]⟩] .none) .nil))
              [("X", ["stemA"])] 0).value_trie.indexOf p.2) := by
  decide

/-- C2 (amended): provided the stem keys are distinct and no aggregated text
equals a suffix-mangled stem key (so the interned key strings are pairwise
distinct), a successful Build of entry_count pairs stores an index of length
entry_count with `index[key_id] = value_id` for every built pair, the key
ids being dense and gapless over `[0, entry_count)`. -/
theorem c2_index_invariant (settingsBlob : Option String) (syl : Syllabary)
    (vocab : Vocabulary) (stems : RevTable)
    (c : Nat) (hstems : (stems.map Prod.fst).Nodup)
    (hdisj : ∀ kv ∈ stems, kv.1 ++ kStemKeySuffix ∉ (revTable syl vocab).map Prod.fst) :
    (ReverseDb.build settingsBlob syl vocab stems c).index.length
        = (builtPairs syl vocab stems).length
      ∧ (∀ p ∈ builtPairs syl vocab stems,
          (ReverseDb.build settingsBlob syl vocab stems c).index.getD
              ((ReverseDb.build settingsBlob syl vocab stems c).key_trie.indexOf p.1) 0
            = (ReverseDb.build settingsBlob syl vocab stems c).value_trie.indexOf p.2)
      ∧ (∀ j, j < (builtPairs syl vocab stems).length →
          ∃ p ∈ builtPairs syl vocab stems,
            (ReverseDb.build settingsBlob syl vocab stems c).key_trie.indexOf p.1 = j) := by
  have hnd := nodup_builtPairs_keys syl vocab stems hstems hdisj
  have hkt : (ReverseDb.build settingsBlob syl vocab stems c).key_trie
      = stringTableOf ((builtPairs syl vocab stems).map Prod.fst) := rfl
  have hkeylen : (ReverseDb.build settingsBlob syl vocab stems c).key_trie.length
      = (builtPairs syl vocab stems).length := by
    rw [hkt, stringTableOf, length_setOfList_of_nodup _ hnd, List.length_map]
  refine ⟨?_, ?_, ?_⟩
  · rw [show (ReverseDb.build settingsBlob syl vocab stems c).index
        = scatterWrite (List.replicate (builtPairs syl vocab stems).length 0)
            (((builtPairs syl vocab stems).map fun q =>
                (stringTableOf ((builtPairs syl vocab stems).map Prod.fst)).indexOf q.1).zip
              ((builtPairs syl vocab stems).map fun q =>
                (stringTableOf ((builtPairs syl vocab stems).map Prod.snd)).indexOf q.2))
        from rfl]
    rw [length_scatterWrite, List.length_replicate]
  · intro p hp
    exact build_index_getD settingsBlob syl vocab stems c hnd p hp
  · intro j hj
    have hjlt : j < (stringTableOf ((builtPairs syl vocab stems).map Prod.fst)).length := by
      rw [stringTableOf, length_setOfList_of_nodup _ hnd, List.length_map]
      exact hj
    have hktnd : (stringTableOf ((builtPairs syl vocab stems).map Prod.fst)).Nodup :=
      nodup_setOfList _
    have hmemkt : (stringTableOf ((builtPairs syl vocab stems).map Prod.fst)).get ⟨j, hjlt⟩
        ∈ (builtPairs syl vocab stems).map Prod.fst :=
      (mem_setOfList _ _).mp (List.get_mem _ _ _)
    obtain ⟨p, hp, hpk⟩ := List.mem_map.mp hmemkt
    refine ⟨p, hp, ?_⟩
    rw [hkt, hpk]
    exact List.indexOf_getElem hktnd j hjlt

/-- Witness for C2: on the spec's example store the index length matches the
pair count, every pair's key id maps to its value id, and the key ids cover
the whole index. -/
theorem c2_witness :
    ([("X", ["stemA"])] : RevTable).map Prod.fst = ["X"]
    ∧ (ReverseDb.build none ["ni", "hao"]
          (.mk (.cons 0 (.mk [⟨"X", [0, 1]⟩] .none) .nil)) [("X", ["stemA"])] 7).index.length
        = (builtPairs ["ni", "hao"]
            (.mk (.cons 0 (.mk [⟨"X", [0, 1]⟩] .none) .nil)) [("X", ["stemA"])]).length
    ∧ (∀ p ∈ builtPairs ["ni", "hao"]
          (.mk (.cons 0 (.mk [⟨"X", [0, 1]⟩] .none) .nil)) [("X", ["stemA"])],
        (ReverseDb.build none ["ni", "hao"]
            (.mk (.cons 0 (.mk [⟨"X", [0, 1]⟩] .none) .nil)) [("X", ["stemA"])] 7).index.getD
            ((ReverseDb.build none ["ni", "hao"]
                (.mk (.cons 0 (.mk [⟨"X", [0, 1]⟩] .none) .nil))
                [("X", ["stemA"])] 7).key_trie.indexOf p.1) 0
          = (ReverseDb.build none ["ni", "hao"]
              (.mk (.cons 0 (.mk [⟨"X", [0, 1]⟩] .none) .nil))
              [("X", ["stemA"])] 7).value_trie.indexOf p.2) :=
  ⟨by decide,
    (c2_index_invariant none ["ni", "hao"]
      (.mk (.cons 0 (.mk [⟨"X", [0, 1]⟩] .none) .nil)) [("X", ["stemA"])] 7
      (by decide) (by decide)).1,
    (c2_index_invariant none ["ni", "hao"]
      (.mk (.cons 0 (.mk [⟨"X", [0, 1]⟩] .none) .nil)) [("X", ["stemA"])] 7
      (by decide) (by decide)).2.1⟩

/-- C3: for a file whose tag is the fixed leading string followed by a
version suffix, Load succeeds exactly when the parsed version lies in the
tolerance window around the compatible version 3.0; in particular a tag of
version 3.0 loads successfully and a tag of version 4.1 — more than one
minor generation above — fails. -/
theorem c3_version_window (f : ReverseDbFile) (s : List Char)
    (h : f.format = kReverseFormatHead ++ s) :
    (∀ db : ReverseDb, ((db.load f).1 = true ↔ versionCompatible (atofQ s) = true))
    ∧ (s = String.toList "3.0" → ∀ db : ReverseDb, (db.load f).1 = true)
    ∧ (s = String.toList "4.1" → ∀ db : ReverseDb, (db.load f).1 = false) := by
  have hpre : kReverseFormatHead.isPrefixOf (kReverseFormatHead ++ s) = true :=
    List.isPrefixOf_iff_prefix.mpr (List.prefix_append _ _)
  have hdrop : (kReverseFormatHead ++ s).drop kReverseFormatHeadLen = s := by
    rw [show kReverseFormatHeadLen = kReverseFormatHead.length from rfl]
    exact List.drop_left _ _
  have hiff : ∀ db : ReverseDb,
      ((db.load f).1 = true ↔ versionCompatible (atofQ s) = true) := by
    intro db
    rw [ReverseDb.load, h, hpre, hdrop]
    cases hv : versionCompatible (atofQ s) <;> simp [hv]
  refine ⟨hiff, ?_, ?_⟩
  · intro hs db
    rw [hiff db, hs, atofQ_toList_30, versionCompatible_30]
  · intro hs db
    cases hload : (db.load f).1 with
    | false => rfl
    | true =>
      exfalso
      have hv := (hiff db).mp hload
      rw [hs, atofQ_toList_41, versionCompatible_41] at hv
      exact Bool.false_ne_true hv

/-- Witness for C3: a store tagged `Rime::Reverse/3.0` loads; a store tagged
`Rime::Reverse/4.1` does not. -/
theorem c3_witness :
    (ReverseDb.closed.load
        ⟨String.toList "Rime::Reverse/3.0", 0, "", [], [], []⟩).1 = true
    ∧ (ReverseDb.closed.load
        ⟨String.toList "Rime::Reverse/4.1", 0, "", [], [], []⟩).1 = false :=
  ⟨(c3_version_window ⟨String.toList "Rime::Reverse/3.0", 0, "", [], [], []⟩
      (String.toList "3.0") (by decide)).2.1 rfl ReverseDb.closed,
    (c3_version_window ⟨String.toList "Rime::Reverse/4.1", 0, "", [], [], []⟩
      (String.toList "4.1") (by decide)).2.2 rfl ReverseDb.closed⟩

/-- C4: Lookup is not-found whenever the store is not loaded or the index is
empty; on a loaded store with a non-empty index it is not-found exactly when
either the key trie has no id for the text or the value resolved through the
index is the empty string. -/
theorem c4_lookup_miss_conditions (f : ReverseDbFile) (text : String) :
    (∀ db : ReverseDb, db.key_trie_ = none ∨ db.value_trie_ = none →
      db.lookup text = none)
    ∧ (f.index.length = 0 →
        ReverseDb.lookup ⟨some f, some f.key_trie, some f.value_trie⟩ text = none)
    ∧ (f.index.length ≠ 0 →
        (ReverseDb.lookup ⟨some f, some f.key_trie, some f.value_trie⟩ text = none ↔
          ∀ key_id, stringTableLookup f.key_trie text = some key_id →
            stringTableGet f.value_trie (f.index.getD key_id 0) = "")) := by
  refine ⟨?_, ?_, ?_⟩
  · rintro ⟨m, kt, vt⟩ hdb
    rcases hdb with h | h
    · subst h
      cases m <;> cases vt <;> rfl
    · subst h
      cases m <;> cases kt <;> rfl
  · intro h0
    rw [lookup_state_some, if_pos h0]
  · intro hne
    rw [lookup_state_some, if_neg hne]
    cases hst : stringTableLookup f.key_trie text with
    | none => simp
    | some key_id =>
      rw [Option.some_bind]
      by_cases hg : stringTableGet f.value_trie (f.index.getD key_id 0) = ""
      · simp [hg]
      · simp [hg]

/-- Witness for C4: an unloaded instance misses; a loaded store with an
empty index misses; on a loaded store with a one-slot index and empty key
trie the miss condition holds vacuously. -/
theorem c4_witness :
    ReverseDb.closed.lookup "X" = none
    ∧ (⟨String.toList "Rime::Reverse/3.1", 0, "", [], [], []⟩ : ReverseDbFile).index.length = 0
    ∧ ReverseDb.lookup ⟨some ⟨String.toList "Rime::Reverse/3.1", 0, "", [], [], []⟩,
        some [], some []⟩ "X" = none
    ∧ (⟨String.toList "Rime::Reverse/3.1", 0, "", [], [], [0]⟩ : ReverseDbFile).index.length ≠ 0
    ∧ ReverseDb.lookup ⟨some ⟨String.toList "Rime::Reverse/3.1", 0, "", [], [], [0]⟩,
        some [], some []⟩ "X" = none :=
  ⟨(c4_lookup_miss_conditions ⟨String.toList "Rime::Reverse/3.1", 0, "", [], [], []⟩
      "X").1 ReverseDb.closed (Or.inl rfl),
    by decide,
    (c4_lookup_miss_conditions ⟨String.toList "Rime::Reverse/3.1", 0, "", [], [], []⟩
      "X").2.1 (by decide),
    by decide,
    ((c4_lookup_miss_conditions ⟨String.toList "Rime::Reverse/3.1", 0, "", [], [], [0]⟩
      "X").2.2 (by decide)).mpr (by decide)⟩

/-- C6: the format tag is the last field Build fills in, acting as a commit
marker; any file whose tag does not begin with the expected leading string —
in particular one whose Build was interrupted before the tag write, leaving
the zero bytes of the fresh buffer — fails Load and leaves the instance
closed. -/
theorem c6_commit_marker :
    (∀ (db : ReverseDb) (f : ReverseDbFile),
        kReverseFormatHead.isPrefixOf f.format = false →
          db.load f = (false, ReverseDb.closed))
    ∧ (∀ (db : ReverseDb) (settingsBlob : Option String) (syl : Syllabary)
        (vocab : Vocabulary) (stems : RevTable) (c : Nat),
        db.load (ReverseDb.buildInterrupted settingsBlob syl vocab stems c)
          = (false, ReverseDb.closed)) := by
  have hpart : ∀ (db : ReverseDb) (f : ReverseDbFile),
      kReverseFormatHead.isPrefixOf f.format = false →
        db.load f = (false, ReverseDb.closed) := by
    intro db f h
    rw [ReverseDb.load, h]
    rfl
  refine ⟨hpart, ?_⟩
  intro db settingsBlob syl vocab stems c
  apply hpart
  rw [show (ReverseDb.buildInterrupted settingsBlob syl vocab stems c).format
      = List.replicate kReverseFormat.length (Char.ofNat 0) from rfl]
  decide

/-- Witness for C6: a file tagged `garbage` is rejected and the instance is
left closed, as is an interrupted build. -/
theorem c6_witness :
    kReverseFormatHead.isPrefixOf (String.toList "garbage") = false
    ∧ ReverseDb.closed.load ⟨String.toList "garbage", 0, "", [], [], []⟩
        = (false, ReverseDb.closed)
    ∧ ReverseDb.closed.load (ReverseDb.buildInterrupted none [] (.mk .nil) [] 0)
        = (false, ReverseDb.closed) :=
  ⟨by decide,
    c6_commit_marker.1 ReverseDb.closed ⟨String.toList "garbage", 0, "", [], [], []⟩ (by decide),
    c6_commit_marker.2 ReverseDb.closed none [] (.mk .nil) [] 0⟩

/-- C10 as frozen is refuted when the text with only-empty pronunciations
collides with a suffix-mangled stem key: the stem value overwrites the index
slot and Lookup returns it instead of reporting not-found. -/
theorem c10_counterexample :
    contributions ["ni"]
        (.mk (.cons 0 (.mk [⟨"X\x1fstem", []⟩] .none) .nil)) "X\x1fstem" = [""]
    ∧ ((ReverseDb.closed.load (ReverseDb.build none ["ni"]
        (.mk (.cons 0 (.mk [⟨"X\x1fstem", []⟩] .none) .nil))
        [("X", ["stemA"])] 0)).2).lookup "X\x1fstem" = some "stemA" := by
  refine ⟨by decide, ?_⟩
  rw [load_build]
  decide

/-- C10 (amended): an entry whose syllable ids all lie outside the syllabary
range contributes the empty pronunciation; provided the stem keys are
distinct and no aggregated text equals a suffix-mangled stem key, a text
whose contributed pronunciations are all empty is reported not-found by
Lookup, while a text that also has a non-empty pronunciation resolves to a
joined value beginning with an empty segment `" | ..."`. -/
theorem c10_empty_pronunciations (settingsBlob : Option String) (syl : Syllabary)
    (vocab : Vocabulary) (stems : RevTable) (c : Nat) (text : String)
    (hstems : (stems.map Prod.fst).Nodup)
    (hdisj : ∀ kv ∈ stems, kv.1 ++ kStemKeySuffix ∉ (revTable syl vocab).map Prod.fst) :
    (∀ e : DictEntry, (∀ cid ∈ e.code, syl.length ≤ cid) →
      pronunciationOf syl e.code = "")
    ∧ (contributions syl vocab text ≠ [] →
        (∀ p ∈ contributions syl vocab text, p = "") →
        ((ReverseDb.closed.load
            (ReverseDb.build settingsBlob syl vocab stems c)).2).lookup text = none)
    ∧ ("" ∈ contributions syl vocab text →
        (∃ q ∈ contributions syl vocab text, q ≠ "") →
        ∃ r, ((ReverseDb.closed.load
            (ReverseDb.build settingsBlob syl vocab stems c)).2).lookup text
          = some (" | " ++ r)) := by
  have hnd := nodup_builtPairs_keys syl vocab stems hstems hdisj
  refine ⟨?_, ?_, ?_⟩
  · intro e he
    rw [pronunciationOf]
    have hnil : e.code.filterMap
        (fun cid => if cid < syl.length then some (syl.getD cid "") else none) = [] := by
      rw [List.filterMap_eq_nil_iff]
      intro cid hcid
      simp [Nat.not_lt.mpr (he cid hcid)]
    rw [hnil]
    rfl
  · intro hne hall
    have hset : setOfList (contributions syl vocab text) = [""] :=
      setOfList_all_empty _ hne hall
    have hget : tableGet (revTable syl vocab) text = some [""] := by
      rw [tableGet_revTable, if_neg hne, hset]
    have hmem := mem_builtPairs_of_tableGet syl vocab stems text [""] hget
    have h := lookup_load_build settingsBlob syl vocab stems c hnd text
      (joinWith " | " [""]) hmem
    have hj : joinWith " | " [""] = "" := rfl
    rwa [if_pos hj] at h
  · intro h0 hq
    obtain ⟨q, hqmem, hqne⟩ := hq
    have hne : contributions syl vocab text ≠ [] := List.ne_nil_of_mem h0
    obtain ⟨tail, hset, htne⟩ := setOfList_cons_empty _ h0 q hqmem hqne
    have hget : tableGet (revTable syl vocab) text = some ("" :: tail) := by
      rw [tableGet_revTable, if_neg hne, hset]
    have hmem := mem_builtPairs_of_tableGet syl vocab stems text ("" :: tail) hget
    obtain ⟨r, hr⟩ := joinWith_cons_of_ne_nil " | " "" tail htne
    have hr2 : joinWith " | " ("" :: tail) = " | " ++ r := by
      rw [hr, show ("" : String) ++ " | " = " | " from by decide]
    have hvne : (" | " ++ r) ≠ "" := by
      intro hcontra
      have hlen := congrArg String.length hcontra
      rw [String.length_append,
        show (" | " : String).length = 3 from by decide,
        show ("" : String).length = 0 from rfl] at hlen
      omega
    have h := lookup_load_build settingsBlob syl vocab stems c hnd text
      (joinWith " | " ("" :: tail)) hmem
    rw [hr2] at h
    rw [if_neg hvne] at h
    exact ⟨r, h⟩

/-- Witness for C10: with syllabary `["ni"]`, the entry for text `"E"` (code
`[7]`, out of range) is reported not-found, while text `"M"` carries both an
empty and a real pronunciation and resolves to a value starting `" | "`. -/
theorem c10_witness :
    (∀ cid ∈ ([7] : List Nat), (["ni"] : Syllabary).length ≤ cid)
    ∧ pronunciationOf ["ni"] [7] = ""
    ∧ ((ReverseDb.closed.load (ReverseDb.build none ["ni"]
        (.mk (.cons 0 (.mk [⟨"E", [7]⟩, ⟨"M", [7]⟩, ⟨"M", [0]⟩] .none) .nil))
        [] 0)).2).lookup "E" = none
    ∧ (∃ r, ((ReverseDb.closed.load (ReverseDb.build none ["ni"]
        (.mk (.cons 0 (.mk [⟨"E", [7]⟩, ⟨"M", [7]⟩, ⟨"M", [0]⟩] .none) .nil))
        [] 0)).2).lookup "M" = some (" | " ++ r)) :=
  ⟨by decide,
    (c10_empty_pronunciations none ["ni"]
      (.mk (.cons 0 (.mk [⟨"E", [7]⟩, ⟨"M", [7]⟩, ⟨"M", [0]⟩] .none) .nil))
      [] 0 "E" (by decide) (by decide)).1 ⟨"E", [7]⟩ (by decide),
    (c10_empty_pronunciations none ["ni"]
      (.mk (.cons 0 (.mk [⟨"E", [7]⟩, ⟨"M", [7]⟩, ⟨"M", [0]⟩] .none) .nil))
      [] 0 "E" (by decide) (by decide)).2.1 (by decide) (by decide),
    (c10_empty_pronunciations none ["ni"]
      (.mk (.cons 0 (.mk [⟨"E", [7]⟩, ⟨"M", [7]⟩, ⟨"M", [0]⟩] .none) .nil))
      [] 0 "M" (by decide) (by decide)).2.2 (by decide) ⟨"ni", by decide, by decide⟩⟩

end RimeReverse
